import Mathlib

/-!
Shallow embedding of the three SAT decision procedures of this repository
(`src/dp.py`, `src/dpll.py`, `src/resolution.py`) together with the semantics
of CNF formulas, and theorems settling the specification claims.

Conventions of the embedding:
* a literal is a nonzero signed integer (`Int`), a clause a `List Int`
  (DP, DPLL) or a `Finset Int` (Resolution, which uses `frozenset`),
  a formula a list of clauses;
* Python loops that are not structurally recursive are given explicit fuel;
  the value `none` of an `Option`-returning embedded function means that the
  Python original either would raise an exception (the only such place is the
  pivot access `clauses[0][0]` in `dpll.py`) or that the fuel ran out;
  fuel-sufficiency is proved where a claim depends on it;
* Python iterates hash sets in an unspecified, implementation-defined order;
  where the source iterates a `set`/`frozenset` or builds a list from one
  (the resolvent construction in `dp.py` line 55, the literal iteration in
  `resolution.py` line 38) the embedding fixes a concrete order
  (first-occurrence order, respectively the sorted order); every property
  proved below is invariant under that choice, since list-clauses are only
  ever inspected through membership.
-/

/-- An assignment gives a truth value to every variable (keyed by the
positive integer naming the variable). -/
abbrev Assignment := Int → Bool

/-- Truth value of a literal under an assignment: a positive literal holds
iff its variable is true, a negative literal iff its variable is false. -/
def evalLit (σ : Assignment) (l : Int) : Bool :=
  if 0 < l then σ l else !σ (-l)

/-- A clause (disjunction) is satisfied when some literal of it is true. -/
def clauseSat (σ : Assignment) (c : List Int) : Prop :=
  ∃ l ∈ c, evalLit σ l = true

instance (σ : Assignment) (c : List Int) : Decidable (clauseSat σ c) := by
  unfold clauseSat; infer_instance

/-- A CNF formula (conjunction of clauses) is satisfied when every clause is. -/
def cnfSat (σ : Assignment) (F : List (List Int)) : Prop :=
  ∀ c ∈ F, clauseSat σ c

instance (σ : Assignment) (F : List (List Int)) : Decidable (cnfSat σ F) := by
  unfold cnfSat; infer_instance

/-- Semantic satisfiability of a CNF formula. -/
def Satisfiable (F : List (List Int)) : Prop :=
  ∃ σ : Assignment, cnfSat σ F

/-- The set of variables (absolute values of literals) occurring in a formula. -/
def varsOf (F : List (List Int)) : Finset Nat :=
  (F.flatten.map Int.natAbs).toFinset

/-- Deduplication keeping the first occurrence of each element, the order in
which Python's hash containers of small ints happen to iterate and, more to
the point, the canonical order we fix for iterating a deduplicated
collection of literals. -/
def firstDedup (ls : List Int) : List Int :=
  ls.foldl (fun acc l => if l ∈ acc then acc else acc ++ [l]) []

namespace DPSolver

/-- Embedding of `DPSolver._choose_var` (dp.py 35-40): the absolute value of the first
literal of the first non-empty clause, if any. -/
def choose_var : List (List Int) → Option Int
  | [] => none
  | c :: rest =>
    match c with
    | [] => choose_var rest
    | l :: _ => some (l.natAbs : Int)

/-- The resolvent built at dp.py line 55:
`[l for l in (set(c1) | set(c2)) if l not in {var, -var}]`.
Membership in `set(c1) | set(c2)` is membership in `c1 ++ c2`; the set's
iteration order is unspecified in Python, we fix first-occurrence order. -/
def resolvent (var : Int) (c1 c2 : List Int) : List Int :=
  (firstDedup (c1 ++ c2)).filter (fun l => l != var && l != -var)

/-- Embedding of `DPSolver._eliminate` (dp.py 42-63).  Partitions the clause set against
`var` exactly as the `if var in clause / elif -var in clause / else` chain
does, forms all pairwise resolvents (outer loop over the positive clauses,
inner over the negative ones), and signals UNSAT (`none`) when some
resolvent is empty — the Python early `return None` and this check have the
same value, since a successful run has produced no empty resolvent. -/
def eliminate (var : Int) (clauses : List (List Int)) : Option (List (List Int)) :=
  let pos := clauses.filter (fun c => decide (var ∈ c))
  let neg := clauses.filter (fun c => !decide (var ∈ c) && decide (-var ∈ c))
  let rest := clauses.filter (fun c => !decide (var ∈ c) && !decide (-var ∈ c))
  let new_clauses := pos.flatMap (fun c1 => neg.map (fun c2 => resolvent var c1 c2))
  if new_clauses.any (fun r => r.isEmpty) then none
  else some (rest ++ new_clauses)

/-- The `while True` loop of `DPSolver.solve` (dp.py 66-77), with fuel.
`none` means the fuel ran out (shown impossible for the fuel used by
`DPSolver.solve`). -/
def solveF : Nat → List (List Int) → Option Bool
  | 0, _ => none
  | fuel + 1, clauses =>
    if clauses.isEmpty then some true
    else if clauses.any (·.isEmpty) then some false
    else
      match choose_var clauses with
      | none => some true
      | some v =>
        match eliminate v clauses with
        | none => some false
        | some next => solveF fuel next

/-- Embedding of `DPSolver.solve` on a clause list: one fuel unit per variable suffices,
since every loop iteration that does not return eliminates a variable. -/
def solve (clauses : List (List Int)) : Option Bool :=
  solveF ((varsOf clauses).card + 1) clauses

end DPSolver

/-! ### Basic membership lemmas for the DP embedding -/

theorem mem_firstDedup {x : Int} {ls : List Int} : x ∈ firstDedup ls ↔ x ∈ ls := by
  have key : ∀ (ls acc : List Int),
      x ∈ ls.foldl (fun acc l => if l ∈ acc then acc else acc ++ [l]) acc ↔
        x ∈ acc ∨ x ∈ ls := by
    intro ls
    induction ls with
    | nil => intro acc; simp
    | cons a ls ih =>
      intro acc
      rw [List.foldl_cons, ih]
      by_cases h : a ∈ acc
      · simp only [if_pos h, List.mem_cons]
        constructor
        · rintro (hx | hx)
          · exact Or.inl hx
          · exact Or.inr (Or.inr hx)
        · rintro (hx | rfl | hx)
          · exact Or.inl hx
          · exact Or.inl h
          · exact Or.inr hx
      · simp only [if_neg h, List.mem_append, List.mem_singleton, List.mem_cons]
        tauto
  simpa [firstDedup] using key ls []

theorem mem_resolvent {l var : Int} {c1 c2 : List Int} :
    l ∈ DPSolver.resolvent var c1 c2 ↔ (l ∈ c1 ∨ l ∈ c2) ∧ l ≠ var ∧ l ≠ -var := by
  simp [DPSolver.resolvent, List.mem_filter, mem_firstDedup, List.mem_append,
    bne_iff_ne]

theorem mem_varsOf {a : Nat} {F : List (List Int)} :
    a ∈ varsOf F ↔ ∃ c ∈ F, ∃ l ∈ c, l.natAbs = a := by
  simp only [varsOf, List.mem_toFinset, List.mem_map, List.mem_flatten]
  constructor
  · rintro ⟨l, ⟨c, hc, hl⟩, rfl⟩
    exact ⟨c, hc, l, hl, rfl⟩
  · rintro ⟨c, hc, l, hl, rfl⟩
    exact ⟨l, ⟨c, hc, hl⟩, rfl⟩

namespace DPSolver

/-- Everything the claims need to know about a successful `_eliminate` call:
clauses mentioning neither polarity are kept, every pos/neg pair contributes
its resolvent, and nothing else is in the result. -/
theorem eliminate_spec {var : Int} {F F' : List (List Int)}
    (h : eliminate var F = some F') :
    (∀ c ∈ F, var ∉ c → -var ∉ c → c ∈ F')
    ∧ (∀ c1 ∈ F, var ∈ c1 → ∀ c2 ∈ F, var ∉ c2 → -var ∈ c2 →
        resolvent var c1 c2 ∈ F')
    ∧ (∀ c ∈ F', (c ∈ F ∧ var ∉ c ∧ -var ∉ c)
        ∨ ∃ c1 ∈ F, ∃ c2 ∈ F, var ∈ c1 ∧ var ∉ c2 ∧ -var ∈ c2
            ∧ c = resolvent var c1 c2) := by
  rw [eliminate] at h
  split at h
  · exact absurd h (by simp)
  · rename_i hne
    injection h with h
    subst h
    refine ⟨?_, ?_, ?_⟩
    · intro c hc hv hnv
      refine List.mem_append_left _ ?_
      simp only [List.mem_filter, Bool.and_eq_true, Bool.not_eq_true',
        decide_eq_false_iff_not]
      exact ⟨hc, hv, hnv⟩
    · intro c1 hc1 hvc1 c2 hc2 hvc2 hnvc2
      refine List.mem_append_right _ ?_
      simp only [List.mem_flatMap, List.mem_map, List.mem_filter,
        Bool.and_eq_true, Bool.not_eq_true',
        decide_eq_true_eq, decide_eq_false_iff_not]
      exact ⟨c1, ⟨hc1, hvc1⟩, c2, ⟨hc2, hvc2, hnvc2⟩, rfl⟩
    · intro c hc
      rcases List.mem_append.1 hc with hrest | hnew
      · simp only [List.mem_filter, Bool.and_eq_true, Bool.not_eq_true',
          decide_eq_false_iff_not] at hrest
        exact Or.inl ⟨hrest.1, hrest.2.1, hrest.2.2⟩
      · simp only [List.mem_flatMap, List.mem_map, List.mem_filter,
          Bool.and_eq_true, Bool.not_eq_true',
          decide_eq_true_eq, decide_eq_false_iff_not] at hnew
        obtain ⟨c1, ⟨hc1, hvc1⟩, c2, ⟨hc2, hvc2, hnvc2⟩, rfl⟩ := hnew
        exact Or.inr ⟨c1, hc1, c2, hc2, hvc1, hvc2, hnvc2, rfl⟩

end DPSolver

/-! ### Updating an assignment at one variable -/

theorem evalLit_update_of_ne {σ : Assignment} {var l : Int} (b : Bool)
    (h1 : l ≠ var) (h2 : l ≠ -var) :
    evalLit (fun x => if x = var then b else σ x) l = evalLit σ l := by
  unfold evalLit
  by_cases hl : 0 < l
  · simp only [if_pos hl, if_neg h1]
  · have h3 : -l ≠ var := fun hc => h2 (by omega)
    simp only [if_neg hl, if_neg h3]

theorem evalLit_update_self {σ : Assignment} {var : Int} (b : Bool) (hv : 0 < var) :
    evalLit (fun x => if x = var then b else σ x) var = b := by
  unfold evalLit
  rw [if_pos hv]
  show (if var = var then b else σ var) = b
  rw [if_pos rfl]

theorem evalLit_update_neg_self {σ : Assignment} {var : Int} (b : Bool) (hv : 0 < var) :
    evalLit (fun x => if x = var then b else σ x) (-var) = !b := by
  unfold evalLit
  rw [if_neg (show ¬(0:Int) < -var by omega)]
  show (!(if -(-var) = var then b else σ (-(-var)))) = !b
  rw [neg_neg, if_pos rfl]

namespace DPSolver

/-- The Davis–Putnam elimination lemma for the resolvent actually built by
the code, which strips both polarities of `var` from the union: it preserves
satisfiability in both directions, provided no clause of the input contains
both `var` and `-var` (without that proviso only the right-to-left direction
survives, see the counterexample to claim C5). -/
theorem eliminate_equisat {var : Int} {F F' : List (List Int)} (hv : 0 < var)
    (h : eliminate var F = some F')
    (hnt : ∀ c ∈ F, ¬(var ∈ c ∧ -var ∈ c)) :
    Satisfiable F ↔ Satisfiable F' := by
  obtain ⟨hkeep, hres, hrev⟩ := eliminate_spec h
  constructor
  · rintro ⟨σ, hσ⟩
    refine ⟨σ, fun c hc => ?_⟩
    rcases hrev c hc with ⟨hcF, _, _⟩ | ⟨c1, hc1, c2, hc2, hvc1, hvc2, hnvc2, rfl⟩
    · exact hσ c hcF
    · obtain ⟨l1, hl1, he1⟩ := hσ c1 hc1
      by_cases h1v : l1 = var
      · obtain ⟨l2, hl2, he2⟩ := hσ c2 hc2
        have hσv : σ var = true := by
          rw [h1v] at he1
          rwa [evalLit, if_pos hv] at he1
        have h2ne : l2 ≠ -var := by
          rintro rfl
          rw [evalLit, if_neg (by omega), neg_neg, hσv] at he2
          exact absurd he2 (by decide)
        have h2nv : l2 ≠ var := fun hh => hvc2 (hh ▸ hl2)
        exact ⟨l2, mem_resolvent.2 ⟨Or.inr hl2, h2nv, h2ne⟩, he2⟩
      · have h1nnv : l1 ≠ -var := by
          rintro rfl
          exact hnt c1 hc1 ⟨hvc1, hl1⟩
        exact ⟨l1, mem_resolvent.2 ⟨Or.inl hl1, h1v, h1nnv⟩, he1⟩
  · rintro ⟨σ, hσ⟩
    by_cases hall : ∀ c2 ∈ F, var ∉ c2 → -var ∈ c2 →
        ∃ l ∈ c2, l ≠ -var ∧ evalLit σ l = true
    · refine ⟨fun x => if x = var then true else σ x, fun c hc => ?_⟩
      by_cases hvc : var ∈ c
      · exact ⟨var, hvc, evalLit_update_self true hv⟩
      · by_cases hnvc : -var ∈ c
        · obtain ⟨l, hl, hlne, he⟩ := hall c hc hvc hnvc
          have hlnv : l ≠ var := fun hh => hvc (hh ▸ hl)
          exact ⟨l, hl, by rw [evalLit_update_of_ne _ hlnv hlne]; exact he⟩
        · obtain ⟨l, hl, he⟩ := hσ c (hkeep c hc hvc hnvc)
          have hlnv : l ≠ var := fun hh => hvc (hh ▸ hl)
          have hlnnv : l ≠ -var := fun hh => hnvc (hh ▸ hl)
          exact ⟨l, hl, by rw [evalLit_update_of_ne _ hlnv hlnnv]; exact he⟩
    · push_neg at hall
      obtain ⟨c2, hc2, hvc2, hnvc2, hbad⟩ := hall
      refine ⟨fun x => if x = var then false else σ x, fun c hc => ?_⟩
      by_cases hnvc : -var ∈ c
      · refine ⟨-var, hnvc, ?_⟩
        rw [evalLit_update_neg_self false hv]
        rfl
      · by_cases hvc : var ∈ c
        · obtain ⟨l, hl, he⟩ := hσ _ (hres c hc hvc c2 hc2 hvc2 hnvc2)
          rw [mem_resolvent] at hl
          obtain ⟨hl12, hlnv, hlnnv⟩ := hl
          rcases hl12 with hl1 | hl2
          · exact ⟨l, hl1, by rw [evalLit_update_of_ne _ hlnv hlnnv]; exact he⟩
          · exact absurd he (hbad l hl2 hlnnv)
        · obtain ⟨l, hl, he⟩ := hσ c (hkeep c hc hvc hnvc)
          have hlnv : l ≠ var := fun hh => hvc (hh ▸ hl)
          have hlnnv : l ≠ -var := fun hh => hnvc (hh ▸ hl)
          exact ⟨l, hl, by rw [evalLit_update_of_ne _ hlnv hlnnv]; exact he⟩

end DPSolver

namespace DPSolver

theorem choose_var_spec {v : Int} :
    ∀ {F : List (List Int)}, choose_var F = some v →
      0 ≤ v ∧ v.natAbs ∈ varsOf F := by
  intro F
  induction F with
  | nil => intro h; simp [choose_var] at h
  | cons c rest ih =>
    intro h
    match c, h with
    | [], h =>
      obtain ⟨h0, hmem⟩ := ih h
      refine ⟨h0, ?_⟩
      rw [mem_varsOf] at hmem ⊢
      obtain ⟨c', hc', l, hl, hh⟩ := hmem
      exact ⟨c', List.mem_cons_of_mem _ hc', l, hl, hh⟩
    | l :: t, h =>
      injection h with h
      subst h
      refine ⟨Int.ofNat_nonneg _, ?_⟩
      rw [mem_varsOf]
      exact ⟨l :: t, List.mem_cons_self _ _, l, List.mem_cons_self _ _,
        by rw [Int.natAbs_ofNat]⟩

theorem eliminate_vars {var : Int} {F F' : List (List Int)}
    (h : eliminate var F = some F') :
    varsOf F' ⊆ (varsOf F).erase var.natAbs := by
  obtain ⟨_, _, hrev⟩ := eliminate_spec h
  intro a ha
  rw [mem_varsOf] at ha
  obtain ⟨c, hc, l, hl, rfl⟩ := ha
  rcases hrev c hc with ⟨hcF, hv1, hv2⟩ | ⟨c1, hc1, c2, hc2, hvc1, hvc2, hnvc2, rfl⟩
  · have hne1 : l ≠ var := fun hh => hv1 (hh ▸ hl)
    have hne2 : l ≠ -var := fun hh => hv2 (hh ▸ hl)
    refine Finset.mem_erase.2 ⟨?_, mem_varsOf.2 ⟨c, hcF, l, hl, rfl⟩⟩
    intro hh
    rcases Int.natAbs_eq_natAbs_iff.1 hh with h1 | h1
    · exact hne1 h1
    · exact hne2 h1
  · rw [mem_resolvent] at hl
    obtain ⟨hl12, hne1, hne2⟩ := hl
    refine Finset.mem_erase.2 ⟨?_, ?_⟩
    · intro hh
      rcases Int.natAbs_eq_natAbs_iff.1 hh with h1 | h1
      · exact hne1 h1
      · exact hne2 h1
    · rcases hl12 with h1 | h1
      · exact mem_varsOf.2 ⟨c1, hc1, l, h1, rfl⟩
      · exact mem_varsOf.2 ⟨c2, hc2, l, h1, rfl⟩

/-- Fuel sufficiency for the DP loop: one unit of fuel per remaining
variable (plus one) is enough, because every iteration that does not return
a verdict eliminates a variable that never reappears. -/
theorem solveF_isSome : ∀ (fuel : Nat) (F : List (List Int)),
    (varsOf F).card < fuel → (solveF fuel F).isSome := by
  intro fuel
  induction fuel with
  | zero => intro F h; exact absurd h (Nat.not_lt_zero _)
  | succ n ih =>
    intro F h
    rw [solveF]
    split
    · rfl
    · split
      · rfl
      · split
        · rfl
        · rename_i v hcv
          split
          · rfl
          · rename_i next helim
            apply ih
            obtain ⟨hv0, hvmem⟩ := choose_var_spec hcv
            have hsub := eliminate_vars helim
            have hlt : (varsOf next).card < (varsOf F).card :=
              lt_of_le_of_lt (Finset.card_le_card hsub)
                (Finset.card_erase_lt_of_mem hvmem)
            omega

end DPSolver

/-- C6: for every finite input formula, `DPSolver.solve` terminates with a
`True` or `False` verdict; every loop iteration that does not return a
verdict eliminates a variable that never reappears, so the fuel of one unit
per distinct variable (plus one) is never exhausted. -/
theorem dp_solve_terminates (F : List (List Int)) : (DPSolver.solve F).isSome :=
  DPSolver.solveF_isSome _ F (Nat.lt_succ_self _)

/-- C5, counterexample: eliminating variable 1 from the satisfiable clause
set `[[1, -1], [-1, 2], [-2]]` (whose first clause is a tautology on the
pivot) succeeds and yields `[[-2], [2]]`, which is unsatisfiable — so a
successful `_eliminate` is not always equisatisfiability-preserving. -/
theorem dp_eliminate_not_equisat :
    DPSolver.eliminate 1 [[1, -1], [-1, 2], [-2]] = some [[-2], [2]]
    ∧ Satisfiable [[1, -1], [-1, 2], [-2]]
    ∧ ¬ Satisfiable [[-2], [2]] := by
  refine ⟨by decide, ⟨fun _ => false, by decide⟩, ?_⟩
  rintro ⟨σ, hσ⟩
  obtain ⟨l, hl, he⟩ := hσ [-2] (by simp)
  obtain ⟨l', hl', he'⟩ := hσ [2] (by simp)
  simp only [List.mem_singleton] at hl hl'
  subst hl
  subst hl'
  rw [evalLit, if_neg (by omega)] at he
  rw [evalLit, if_pos (by omega)] at he'
  rw [show -(-2 : Int) = 2 by omega, he'] at he
  exact absurd he (by decide)

/-- C5 (amended): after a successful `DPSolver._eliminate(v)` the resulting
clause set contains no clause mentioning `v` or `-v`; clauses mentioning
neither polarity are kept and the rest of the result consists exactly of
the pairwise resolvents of the positive clauses against the negative ones
(duplicates removed, both polarities of `v` stripped); and — provided no
input clause contains both `v` and `-v` — the result is equisatisfiable
with the input.  (The proviso is forced by `dp_eliminate_not_equisat`.) -/
theorem dp_eliminate_correct {var : Int} {F F' : List (List Int)}
    (hv : 0 < var) (h : DPSolver.eliminate var F = some F') :
    (∀ c ∈ F', var ∉ c ∧ -var ∉ c)
    ∧ (∀ c ∈ F, var ∉ c → -var ∉ c → c ∈ F')
    ∧ (∀ c1 ∈ F, var ∈ c1 → ∀ c2 ∈ F, var ∉ c2 → -var ∈ c2 →
        DPSolver.resolvent var c1 c2 ∈ F')
    ∧ (∀ c ∈ F', (c ∈ F ∧ var ∉ c ∧ -var ∉ c)
        ∨ ∃ c1 ∈ F, ∃ c2 ∈ F, var ∈ c1 ∧ var ∉ c2 ∧ -var ∈ c2
            ∧ c = DPSolver.resolvent var c1 c2)
    ∧ ((∀ c ∈ F, ¬(var ∈ c ∧ -var ∈ c)) → (Satisfiable F ↔ Satisfiable F')) := by
  obtain ⟨hkeep, hres, hrev⟩ := DPSolver.eliminate_spec h
  refine ⟨?_, hkeep, hres, hrev, fun hnt => DPSolver.eliminate_equisat hv h hnt⟩
  intro c hc
  rcases hrev c hc with ⟨_, hv1, hv2⟩ | ⟨c1, _, c2, _, _, _, _, rfl⟩
  · exact ⟨hv1, hv2⟩
  · constructor
    · intro hmem
      exact (mem_resolvent.1 hmem).2.1 rfl
    · intro hmem
      exact (mem_resolvent.1 hmem).2.2 rfl

/-- Witness for `dp_eliminate_correct` at a concrete elimination. -/
theorem dp_eliminate_correct_witness :
    (0:Int) < 1
    ∧ DPSolver.eliminate 1 [[1, 2], [-1, 3]] = some [[2, 3]]
    ∧ ∀ c ∈ [[2, 3]], (1:Int) ∉ c ∧ (-1:Int) ∉ c :=
  ⟨by decide, by decide,
    (@dp_eliminate_correct 1 [[1, 2], [-1, 3]] [[2, 3]] (by decide) (by decide)).1⟩

/-! ### The DPLL engine (`src/dpll.py`) -/

namespace DPLLSolver

/-- A Python `dict` from variable to bool: an association list in key
insertion order, overwritten in place. -/
abbrev Model := List (Int × Bool)

/-- Assignment `model[k] = b`: overwrite the binding in place if the key is present,
append it otherwise (Python dicts keep the original position of an
updated key). -/
def mset (m : Model) (k : Int) (b : Bool) : Model :=
  if m.any (fun p => p.1 == k) then
    m.map (fun p => if p.1 == k then (k, b) else p)
  else m ++ [(k, b)]

/-- Lookup `model.get(k)`. -/
def mget (m : Model) (k : Int) : Option Bool :=
  (m.find? (fun p => p.1 == k)).map (·.2)

/-- The four counters of `DPLLSolver._stats`. -/
structure Stats where
  decisions : Nat
  backtracks : Nat
  unit : Nat
  pure : Nat
deriving DecidableEq

/-- Embedding of `DPLLSolver._find_unit` (dpll.py 41-46): the literal of the first
clause of length exactly one. -/
def find_unit (clauses : List (List Int)) : Option Int :=
  match clauses.find? (fun c => c.length == 1) with
  | some c => c.head?
  | none => none

/-- Embedding of `DPLLSolver._find_pure` (dpll.py 48-57): scanning the literal-occurrence
counter in first-occurrence order, the first literal whose negation occurs
nowhere. -/
def find_pure (clauses : List (List Int)) : Option Int :=
  let keys := firstDedup clauses.flatten
  keys.find? (fun l => !decide (-l ∈ keys))

/-- Embedding of `DPLLSolver._simplify` (dpll.py 59-72): drop clauses containing `lit`,
remove `-lit` from the others, and signal a conflict (`none`) as soon as a
clause is reduced to nothing.  Clauses already empty on entry are copied
unchanged (the emptiness test only guards freshly reduced clauses). -/
def simplify (clauses : List (List Int)) (lit : Int) : Option (List (List Int)) :=
  match clauses with
  | [] => some []
  | c :: rest =>
    if lit ∈ c then simplify rest lit
    else if -lit ∈ c then
      let reduced := c.filter (fun x => x != -lit)
      if reduced.isEmpty then none
      else (simplify rest lit).map (fun r => reduced :: r)
    else (simplify rest lit).map (fun r => c :: r)

/-- The unit-propagation `while` loop of `DPLLSolver._propagate`
(dpll.py 76-84), with fuel; the inner `none` is the conflict signal, the
outer `none` exhausted fuel. -/
def unitLoop : Nat → List (List Int) → Model → Stats →
    Option (Option (List (List Int)) × Model × Stats)
  | 0, _, _, _ => none
  | fuel + 1, clauses, model, st =>
    match find_unit clauses with
    | none => some (some clauses, model, st)
    | some u =>
      let st' : Stats := { st with unit := st.unit + 1 }
      let model' := mset model (u.natAbs : Int) (decide (0 < u))
      match simplify clauses u with
      | none => some (none, model', st')
      | some cl => unitLoop fuel cl model' st'

/-- The pure-literal `while` loop of `DPLLSolver._propagate`
(dpll.py 87-94), with fuel. -/
def pureLoop : Nat → List (List Int) → Model → Stats →
    Option (List (List Int) × Model × Stats)
  | 0, _, _, _ => none
  | fuel + 1, clauses, model, st =>
    match find_pure clauses with
    | none => some (clauses, model, st)
    | some p =>
      pureLoop fuel (clauses.filter (fun c => !decide (p ∈ c)))
        (mset model (p.natAbs : Int) (decide (0 < p)))
        { st with pure := st.pure + 1 }

/-- Embedding of `DPLLSolver._propagate` (dpll.py 74-95).  Each loop gets fuel that is
proved sufficient below (each unit propagation removes a variable, each
pure-literal round removes a clause), so `none` never actually escapes. -/
def propagate (clauses : List (List Int)) (model : Model) (st : Stats) :
    Option (Option (List (List Int)) × Model × Stats) :=
  match unitLoop ((varsOf clauses).card + 1) clauses model st with
  | none => none
  | some (none, m, s) => some (none, m, s)
  | some (some cl, m, s) =>
    match pureLoop (cl.length + 1) cl m s with
    | none => none
    | some (cl2, m2, s2) => some (some cl2, m2, s2)

/-- Embedding of `DPLLSolver.solve` (dpll.py 99-124), with fuel, the two iterations of
`for truth in (True, False)` unrolled.  Results: `some (some m, st)` is
SAT with model `m`, `some (none, st)` is UNSAT, and `none` means the Python
original raises `IndexError` at the pivot access `clauses[0][0]` (line 113)
— the only statement of the procedure that can fail — or that the fuel ran
out (impossible for the fuel chosen by `solve`, see `solveF_isSome`).
Note the faithful quirk on line 117 of the source: the model records
`abs(pivot) = truth` even though the branch simplifies on the literal
`pivot if truth else -pivot`, so for a negative pivot the recorded polarity
is inverted. -/
def solveF : Nat → List (List Int) → Model → Stats → Option (Option Model × Stats)
  | 0, _, _, _ => none
  | fuel + 1, clauses, model, st =>
    match propagate clauses model st with
    | none => none
    | some (none, _, s) => some (none, s)
    | some (some cl, m, s) =>
      match cl with
      | [] => some (some m, s)
      | [] :: _ => none
      | (p :: _) :: _ =>
        let s1 : Stats := { s with decisions := s.decisions + 1 }
        let att1 : Option (Stats ⊕ (Model × Stats)) :=
          match simplify cl p with
          | none => some (Sum.inl s1)
          | some red =>
            match solveF fuel red (mset m (p.natAbs : Int) true) s1 with
            | none => none
            | some (some m2, s2) => some (Sum.inr (m2, s2))
            | some (none, s2) => some (Sum.inl s2)
        match att1 with
        | none => none
        | some (Sum.inr (m2, s2)) => some (some m2, s2)
        | some (Sum.inl sFail) =>
          let s2 : Stats := { sFail with backtracks := sFail.backtracks + 1 }
          match simplify cl (-p) with
          | none => some (none, { s2 with backtracks := s2.backtracks + 1 })
          | some red =>
            match solveF fuel red (mset m (p.natAbs : Int) false) s2 with
            | none => none
            | some (some m2, s3) => some (some m2, s3)
            | some (none, s3) => some (none, { s3 with backtracks := s3.backtracks + 1 })

/-- Embedding of `DPLLSolver.solve()` called on a fresh instance: private copy of the
formula, empty model, zeroed counters; one fuel unit per variable plus one
(each recursion level removes at least the pivot variable). -/
def solve (cnf : List (List Int)) : Option (Option Model × Stats) :=
  solveF ((varsOf cnf).card + 1) cnf [] ⟨0, 0, 0, 0⟩

end DPLLSolver

/-- The notion of claim C4: a clause contains a literal made true by a DPLL
model — a positive literal whose variable is mapped to `true`, or a
negative literal whose variable is mapped to `false`. -/
def modelSatisfies (m : DPLLSolver.Model) (c : List Int) : Prop :=
  ∃ l ∈ c, DPLLSolver.mget m (l.natAbs : Int) = some (decide (0 < l))

instance (m : DPLLSolver.Model) (c : List Int) : Decidable (modelSatisfies m c) := by
  unfold modelSatisfies
  infer_instance

/-- C4 fails on the code: on `[[-1, 2], [1, -2]]` (satisfiable, no unit, no
pure literal) the pivot is the negative literal `-1`; line 117 of dpll.py
records `model[abs(pivot)] = truth` although the branch simplifies on the
literal `-pivot`, so the returned model maps variable 1 to `true` and
variable 2 to `false`, which falsifies the original clause `[-1, 2]`. -/
theorem dpll_model_invalid :
    DPLLSolver.solve [[-1, 2], [1, -2]] =
      some (some [(1, true), (2, false)], ⟨1, 0, 1, 0⟩)
    ∧ ¬ modelSatisfies [(1, true), (2, false)] [-1, 2] := by
  constructor
  · decide
  · decide

/-- C8, counterexample: on `[[1, 2], [-1]]` the unit-propagation counter at
return is not 1 (propagating `-1` turns `[1, 2]` into the new unit `[2]`,
which is propagated as well, so the counter is 2). -/
theorem dpll_unit_counter_ne_one :
    ¬ (DPLLSolver.solve [[1, 2], [-1]]).map (fun r => r.2.unit) = some 1 := by
  decide

/-- C8 (amended): on `[[1, 2], [-1]]` DPLL returns the model mapping
variable 1 to false and variable 2 to true, with the unit-propagation
counter equal to 2 (and no decisions, backtracks or pure eliminations). -/
theorem dpll_unit_scenario :
    DPLLSolver.solve [[1, 2], [-1]] =
      some (some [(1, false), (2, true)], ⟨0, 0, 2, 0⟩)
    ∧ DPLLSolver.mget [(1, false), (2, true)] 1 = some false
    ∧ DPLLSolver.mget [(1, false), (2, true)] 2 = some true := by
  refine ⟨by decide, by decide, by decide⟩

/-! ### Safety of the pivot access (claim C10) -/

theorem length_filter_lt {q : List Int → Bool} :
    ∀ {l : List (List Int)} {c : List Int}, c ∈ l → q c = false →
      (l.filter q).length < l.length := by
  intro l
  induction l with
  | nil => intro c hc; simp at hc
  | cons a t ih =>
    intro c hc hq
    rcases List.mem_cons.1 hc with rfl | hmem
    · rw [List.filter_cons, if_neg (by simp [hq])]
      exact Nat.lt_succ_of_le (List.length_filter_le _ _)
    · rw [List.filter_cons]
      split
      · exact Nat.succ_lt_succ (ih hmem hq)
      · exact Nat.lt_succ_of_lt (ih hmem hq)

theorem varsOf_mono {F G : List (List Int)} (h : ∀ c ∈ F, c ∈ G) :
    varsOf F ⊆ varsOf G := by
  intro a ha
  rw [mem_varsOf] at ha ⊢
  obtain ⟨c, hc, l, hl, rfl⟩ := ha
  exact ⟨c, h c hc, l, hl, rfl⟩

namespace DPLLSolver

theorem find_unit_spec {cl : List (List Int)} {u : Int}
    (h : find_unit cl = some u) : [u] ∈ cl := by
  unfold find_unit at h
  split at h
  · rename_i c hfind
    have hmem := List.mem_of_find?_eq_some hfind
    have hpred := List.find?_some hfind
    rw [beq_iff_eq] at hpred
    obtain ⟨x, rfl⟩ := List.length_eq_one.1 hpred
    simp only [List.head?_cons, Option.some.injEq] at h
    subst h
    exact hmem
  · exact absurd h (by simp)

theorem find_pure_spec {cl : List (List Int)} {p : Int}
    (h : find_pure cl = some p) : ∃ c ∈ cl, p ∈ c := by
  unfold find_pure at h
  have hmem := List.mem_of_find?_eq_some h
  rw [mem_firstDedup, List.mem_flatten] at hmem
  exact hmem

/-- What `_simplify` produces: each output clause is a subset of an input
clause, mentions neither `lit` nor `-lit`, and is nonempty unless it is the
untouched copy of an input clause that was already empty. -/
theorem simplify_spec {lit : Int} :
    ∀ (cl : List (List Int)) {cl' : List (List Int)},
      simplify cl lit = some cl' →
      ∀ c ∈ cl', ∃ c0 ∈ cl, c ⊆ c0 ∧ lit ∉ c ∧ -lit ∉ c ∧ (c0 ≠ [] → c ≠ []) := by
  intro cl
  induction cl with
  | nil =>
    intro cl' h c hc
    rw [simplify] at h
    injection h with h
    subst h
    simp at hc
  | cons c0 rest ih =>
    intro cl' h c hc
    rw [simplify] at h
    split at h
    · rename_i hin
      obtain ⟨d0, hd0, hsub, h1, h2, h3⟩ := ih h c hc
      exact ⟨d0, List.mem_cons_of_mem _ hd0, hsub, h1, h2, h3⟩
    · rename_i hnin
      split at h
      · rename_i hneg
        dsimp only at h
        split at h
        · exact absurd h (by simp)
        · rename_i hne
          rw [Option.map_eq_some'] at h
          obtain ⟨r, hr, rfl⟩ := h
          rcases List.mem_cons.1 hc with rfl | hmem
          · refine ⟨c0, List.mem_cons_self _ _, List.filter_subset' _, ?_, ?_, ?_⟩
            · intro hmem2
              exact hnin (List.filter_subset' c0 hmem2)
            · intro hmem2
              have := List.of_mem_filter hmem2
              simp at this
            · intro _
              intro hemp
              rw [hemp] at hne
              exact hne rfl
          · obtain ⟨d0, hd0, hsub, h1, h2, h3⟩ := ih hr c hmem
            exact ⟨d0, List.mem_cons_of_mem _ hd0, hsub, h1, h2, h3⟩
      · rename_i hneg
        rw [Option.map_eq_some'] at h
        obtain ⟨r, hr, rfl⟩ := h
        rcases List.mem_cons.1 hc with rfl | hmem
        · exact ⟨c, List.mem_cons_self _ _, List.Subset.refl _, hnin, hneg, fun h => h⟩
        · obtain ⟨d0, hd0, hsub, h1, h2, h3⟩ := ih hr c hmem
          exact ⟨d0, List.mem_cons_of_mem _ hd0, hsub, h1, h2, h3⟩

theorem simplify_vars {lit : Int} {cl cl' : List (List Int)}
    (h : simplify cl lit = some cl') :
    varsOf cl' ⊆ (varsOf cl).erase lit.natAbs := by
  intro a ha
  rw [mem_varsOf] at ha
  obtain ⟨c, hc, l, hl, rfl⟩ := ha
  obtain ⟨c0, hc0, hsub, h1, h2, _⟩ := simplify_spec cl h c hc
  refine Finset.mem_erase.2 ⟨?_, mem_varsOf.2 ⟨c0, hc0, l, hsub hl, rfl⟩⟩
  intro hh
  rcases Int.natAbs_eq_natAbs_iff.1 hh with rfl | rfl
  · exact h1 hl
  · exact h2 hl

theorem simplify_nonempty {lit : Int} {cl cl' : List (List Int)}
    (h : simplify cl lit = some cl') (hne : ∀ c ∈ cl, c ≠ []) :
    ∀ c ∈ cl', c ≠ [] := by
  intro c hc
  obtain ⟨c0, hc0, _, _, _, h3⟩ := simplify_spec cl h c hc
  exact h3 (hne c0 hc0)

theorem unitLoop_spec : ∀ (fuel : Nat) (cl : List (List Int)) (m : Model) (st : Stats),
    (varsOf cl).card < fuel →
    (unitLoop fuel cl m st ≠ none) ∧
    (∀ cl2 m2 s2, unitLoop fuel cl m st = some (some cl2, m2, s2) →
      varsOf cl2 ⊆ varsOf cl ∧ ((∀ c ∈ cl, c ≠ []) → (∀ c ∈ cl2, c ≠ []))) := by
  intro fuel
  induction fuel with
  | zero =>
    intro cl m st h
    exact absurd h (Nat.not_lt_zero _)
  | succ n ih =>
    intro cl m st h
    cases hfu : find_unit cl with
    | none =>
      simp only [unitLoop, hfu]
      refine ⟨by simp, ?_⟩
      intro cl2 m2 s2 hh
      injection hh with hh
      injection hh with hh1 hh2
      injection hh1 with hh1
      subst hh1
      exact ⟨Finset.Subset.refl _, fun hne => hne⟩
    | some u =>
      have hu : [u] ∈ cl := find_unit_spec hfu
      have humem : u.natAbs ∈ varsOf cl :=
        mem_varsOf.2 ⟨[u], hu, u, List.mem_singleton_self _, rfl⟩
      cases hs : simplify cl u with
      | none =>
        simp only [unitLoop, hfu, hs]
        refine ⟨by simp, ?_⟩
        intro cl2 m2 s2 hh
        injection hh with hh
        injection hh with hh1 hh2
        exact absurd hh1 (by simp)
      | some cl1 =>
        have hsub := simplify_vars hs
        have hcard : (varsOf cl1).card < n := by
          have h1 : (varsOf cl1).card < (varsOf cl).card :=
            lt_of_le_of_lt (Finset.card_le_card hsub)
              (Finset.card_erase_lt_of_mem humem)
          omega
        obtain ⟨hne, hrest⟩ := ih cl1 (mset m (u.natAbs : Int) (decide (0 < u)))
          { st with unit := st.unit + 1 } hcard
        simp only [unitLoop, hfu, hs]
        refine ⟨hne, ?_⟩
        intro cl2 m2 s2 hh
        obtain ⟨hsub2, hne2⟩ := hrest cl2 m2 s2 hh
        refine ⟨hsub2.trans (hsub.trans (Finset.erase_subset _ _)), ?_⟩
        intro hcl
        exact hne2 (simplify_nonempty hs hcl)

theorem pureLoop_spec : ∀ (fuel : Nat) (cl : List (List Int)) (m : Model) (st : Stats),
    cl.length < fuel →
    (pureLoop fuel cl m st ≠ none) ∧
    (∀ cl2 m2 s2, pureLoop fuel cl m st = some (cl2, m2, s2) →
      varsOf cl2 ⊆ varsOf cl ∧ ((∀ c ∈ cl, c ≠ []) → (∀ c ∈ cl2, c ≠ []))) := by
  intro fuel
  induction fuel with
  | zero =>
    intro cl m st h
    exact absurd h (Nat.not_lt_zero _)
  | succ n ih =>
    intro cl m st h
    cases hfp : find_pure cl with
    | none =>
      simp only [pureLoop, hfp]
      refine ⟨by simp, ?_⟩
      intro cl2 m2 s2 hh
      injection hh with hh
      injection hh with hh1 hh2
      subst hh1
      exact ⟨Finset.Subset.refl _, fun hne => hne⟩
    | some p =>
      obtain ⟨c, hcmem, hpc⟩ := find_pure_spec hfp
      have hlen : (cl.filter (fun c => !decide (p ∈ c))).length < n := by
        have hq : (fun c => !decide (p ∈ c)) c = false := by
          show (!decide (p ∈ c)) = false
          simp [hpc]
        have := length_filter_lt (q := fun c => !decide (p ∈ c)) hcmem hq
        omega
      obtain ⟨hne, hrest⟩ := ih (cl.filter (fun c => !decide (p ∈ c)))
        (mset m (p.natAbs : Int) (decide (0 < p))) { st with pure := st.pure + 1 } hlen
      simp only [pureLoop, hfp]
      refine ⟨hne, ?_⟩
      intro cl2 m2 s2 hh
      obtain ⟨hsub2, hne2⟩ := hrest cl2 m2 s2 hh
      refine ⟨hsub2.trans (varsOf_mono fun c hc => List.filter_subset' _ hc), ?_⟩
      intro hcl
      exact hne2 fun c hc => hcl c (List.filter_subset' _ hc)

theorem propagate_spec (cl : List (List Int)) (m : Model) (st : Stats) :
    (propagate cl m st ≠ none) ∧
    (∀ cl2 m2 s2, propagate cl m st = some (some cl2, m2, s2) →
      varsOf cl2 ⊆ varsOf cl ∧ ((∀ c ∈ cl, c ≠ []) → (∀ c ∈ cl2, c ≠ []))) := by
  obtain ⟨hne1, hrest1⟩ :=
    unitLoop_spec ((varsOf cl).card + 1) cl m st (Nat.lt_succ_self _)
  unfold propagate
  rcases hu : unitLoop ((varsOf cl).card + 1) cl m st with _ | ⟨ocl1, m1, s1⟩
  · exact absurd hu hne1
  · cases ocl1 with
    | none =>
      dsimp only
      refine ⟨by simp, ?_⟩
      intro cl2 m2 s2 hh
      injection hh with hh
      injection hh with hh1 hh2
      exact absurd hh1 (by simp)
    | some cl1 =>
      obtain ⟨hsub1, hne1'⟩ := hrest1 cl1 m1 s1 hu
      obtain ⟨hne2, hrest2⟩ := pureLoop_spec (cl1.length + 1) cl1 m1 s1 (Nat.lt_succ_self _)
      dsimp only
      rcases hp : pureLoop (cl1.length + 1) cl1 m1 s1 with _ | ⟨cl2', m2', s2'⟩
      · exact absurd hp hne2
      · obtain ⟨hsub2, hne2'⟩ := hrest2 cl2' m2' s2' hp
        refine ⟨by simp, ?_⟩
        intro cl2 m2 s2 hh
        injection hh with hh
        injection hh with hh1 hh2
        injection hh1 with hh1
        subst hh1
        exact ⟨hsub2.trans hsub1, fun hcl => hne2' (hne1' hcl)⟩

end DPLLSolver

namespace DPLLSolver

theorem solveF_ne_none : ∀ (fuel : Nat) (cl : List (List Int)) (m : Model) (st : Stats),
    (varsOf cl).card < fuel → (∀ c ∈ cl, c ≠ []) →
    solveF fuel cl m st ≠ none := by
  intro fuel
  induction fuel with
  | zero =>
    intro cl m st h hne
    exact absurd h (Nat.not_lt_zero _)
  | succ n ih =>
    intro cl m st h hne
    obtain ⟨hpne, hprest⟩ := propagate_spec cl m st
    rw [solveF]
    rcases hp : propagate cl m st with _ | ⟨ocl, m1, s1⟩
    · exact absurd hp hpne
    · cases ocl with
      | none => simp
      | some cl2 =>
        obtain ⟨hsub, hnep⟩ := hprest cl2 m1 s1 hp
        have hne2 : ∀ c ∈ cl2, c ≠ [] := hnep hne
        have hcard2 : (varsOf cl2).card ≤ n := by
          have := Finset.card_le_card hsub
          omega
        have key : ∀ (lit : Int) (red : List (List Int)) (m0 : Model) (s0 : Stats),
            lit.natAbs ∈ varsOf cl2 → simplify cl2 lit = some red →
            solveF n red m0 s0 ≠ none := by
          intro lit red m0 s0 hmem hs
          have hv := simplify_vars hs
          have hcard : (varsOf red).card < n := by
            have h1 : (varsOf red).card < (varsOf cl2).card :=
              lt_of_le_of_lt (Finset.card_le_card hv)
                (Finset.card_erase_lt_of_mem hmem)
            omega
          exact ih red m0 s0 hcard (simplify_nonempty hs hne2)
        rcases cl2 with _ | ⟨c1, rest2⟩
        · simp
        · rcases c1 with _ | ⟨p, t⟩
          · exact absurd rfl (hne2 [] (List.mem_cons_self _ _))
          · have hpmem : p.natAbs ∈ varsOf ((p :: t) :: rest2) :=
              mem_varsOf.2 ⟨p :: t, List.mem_cons_self _ _, p, List.mem_cons_self _ _, rfl⟩
            have hnmem : (-p).natAbs ∈ varsOf ((p :: t) :: rest2) := by
              rwa [Int.natAbs_neg]
            dsimp only
            split
            · -- the first branch produced the crash value: impossible
              rename_i heq
              split at heq
              · exact absurd heq (by simp)
              · rename_i red hsred
                split at heq
                · rename_i hrec
                  exact absurd hrec (key p red _ _ hpmem hsred)
                · exact absurd heq (by simp)
                · exact absurd heq (by simp)
            · -- the first branch succeeded
              simp
            · -- the first branch failed; second branch
              split
              · -- conflict on the second simplification: UNSAT result
                simp
              · rename_i red2 hsred2
                split
                · rename_i hrec2
                  exact absurd hrec2 (key (-p) red2 _ _ hnmem hsred2)
                · simp
                · simp

end DPLLSolver

/-- C10: if every clause of the input formula is non-empty,
`DPLLSolver.solve` never indexes into an empty clause at the pivot access
`clauses[0][0]` (and its fuel never runs out): the result is never the
crash value `none`.  `_simplify` returns the conflict signal instead of
ever emitting a zero-literal clause and pure-literal elimination only
deletes whole clauses, so the first remaining clause at a decision point
is non-empty. -/
theorem dpll_no_crash (F : List (List Int)) (h : ∀ c ∈ F, c ≠ []) :
    DPLLSolver.solve F ≠ none :=
  DPLLSolver.solveF_ne_none _ F [] ⟨0, 0, 0, 0⟩ (Nat.lt_succ_self _) h

/-- Witness for `dpll_no_crash` at a concrete input. -/
theorem dpll_no_crash_witness :
    (∀ c ∈ [[1, 2], [-2]], c ≠ ([] : List Int))
    ∧ DPLLSolver.solve [[1, 2], [-2]] ≠ none :=
  ⟨by decide, dpll_no_crash [[1, 2], [-2]] (by decide)⟩

/-! ### The Resolution engine (`src/resolution.py`)

Clauses are `frozenset`s of literals here.  The embedding represents a
frozenset as its canonical form: the sorted list of its distinct elements
(the specification itself describes clause identity as "a normalized
sorted sequence or an order-independent set keyed by canonical content").
All operations below preserve canonical form, so equality of the lists is
equality of the underlying literal sets, and Python's unspecified
frozenset iteration order becomes the sorted order. -/

/-- Sorted insertion of an integer into a list. -/
def sInsert (x : Int) : List Int → List Int
  | [] => [x]
  | y :: ys => if x ≤ y then x :: y :: ys else y :: sInsert x ys

/-- Insertion sort. -/
def ssort : List Int → List Int
  | [] => []
  | x :: xs => sInsert x (ssort xs)

/-- The canonical (sorted, duplicate-free) form of a literal collection:
the embedding of `frozenset(ls)`. -/
def canon (ls : List Int) : List Int := ssort (firstDedup ls)

namespace ResolutionEngine

/-- Removal of one element, the frozenset difference used by the resolvent
(removing preserves canonical form). -/
def serase (s : List Int) (x : Int) : List Int := s.filter (fun y => y != x)

/-- Union of two literal sets, re-canonicalised. -/
def sunion (a b : List Int) : List Int := canon (a ++ b)

/-- Embedding of `ResolutionEngine._resolve_pair` (resolution.py 36-42): one resolvent
`(left - {lit}) | (right - {-lit})` for each literal `lit` of `left` whose
negation is in `right`, iterating `left` in canonical (sorted) order. -/
def resolve_pair (left right : List Int) : List (List Int) :=
  left.filterMap (fun lit =>
    if -lit ∈ right then some (sunion (serase left lit) (serase right (-lit))) else none)

/-- The engine state mutated by `ResolutionEngine.solve`: the growing pool,
the collection of clause values ever seen (used only through membership),
the derived-index list, the running clause count `total_count`, and the
`pairs` statistics counter. -/
structure RState where
  pool : List (List Int)
  seen : List (List Int)
  derived : List Nat
  total : Nat
  pairs : Nat
deriving DecidableEq

/-- The body of the innermost loop (resolution.py 52-60): count the
attempt; if the resolvent was not seen before, append it to the pool,
mark it seen, record its index, and stop with UNSAT if it is empty. -/
def step (st : RState) (c : List Int) : RState × Bool :=
  let st1 : RState := { st with pairs := st.pairs + 1 }
  if c ∈ st1.seen then (st1, false)
  else
    ({ st1 with
        total := st1.total + 1
        pool := st1.pool ++ [c]
        seen := c :: st1.seen
        derived := st1.derived ++ [st1.total + 1] }, c.isEmpty)

/-- Run `step` over the resolvents of one pair, stopping at the first
newly derived empty clause. -/
def stepAll (st : RState) : List (List Int) → RState × Bool
  | [] => (st, false)
  | c :: cs =>
    match step st c with
    | (st', true) => (st', true)
    | (st', false) => stepAll st' cs

/-- All index pairs `(i, j)` with `i < j < n`, in the iteration order of
the two nested `for` loops of resolution.py 50-51. -/
def pairsUpTo (n : Nat) : List (Nat × Nat) :=
  (List.range n).flatMap (fun i => ((List.range n).drop (i + 1)).map (fun j => (i, j)))

/-- One outer pass (resolution.py 49-60) over the pairs of the pool as it
stood when the pass began.  Python indexes the current pool at `i, j <
current_len`, but the loop body only ever appends, so that prefix equals
the snapshot `snap` taken at the start of the pass. -/
def runPass (snap : List (List Int)) : List (Nat × Nat) → RState → RState × Bool
  | [], st => (st, false)
  | (i, j) :: rest, st =>
    match stepAll st (resolve_pair (snap.getD i []) (snap.getD j [])) with
    | (st', true) => (st', true)
    | (st', false) => runPass snap rest st'

/-- The `while True` loop of `ResolutionEngine.solve` (resolution.py
48-63), with fuel, returning the verdict (`true` = UNSAT, `false` = SAT)
and the final state.  The termination test of line 62 compares
`len(pool)`, `len(initial) + len(derived)` and `total_count` — three
quantities that every update moves in lockstep, so the test is always
true and the loop returns at the end of its first pass (claim C2); the
test is nevertheless embedded exactly as written. -/
def solveLoop (initLen : Nat) : Nat → RState → Option (Bool × RState)
  | 0, _ => none
  | fuel + 1, st =>
    match runPass st.pool (pairsUpTo st.pool.length) st with
    | (st', true) => some (true, st')
    | (st', false) =>
      if st'.pool.length = initLen + st'.derived.length ∧ st'.pool.length = st'.total
      then some (false, st')
      else solveLoop initLen fuel st'

/-- Embedding of `ResolutionEngine(input).solve()` with the state initialised as in
`__init__` (resolution.py 30-34) and `solve` (45-46), keeping the final
state; each input clause is put in canonical (frozenset) form. -/
def run (input : List (List Int)) : Option (Bool × RState) :=
  let cs := input.map canon
  solveLoop cs.length (cs.length + 1)
    { pool := cs, seen := cs, derived := [], total := cs.length, pairs := 0 }

/-- The verdict of `ResolutionEngine.solve`: `true` means UNSAT (a new
empty clause was derived), `false` means SAT. -/
def solve (input : List (List Int)) : Option Bool :=
  (run input).map (·.1)

end ResolutionEngine

/-- C1 fails on the code: on the unsatisfiable formula `[[1,2],[-1],[-2]]`
DP answers UNSAT (`False`) and DPLL answers UNSAT (`None`), but the
Resolution engine answers SAT (`False`): its fixed-point test
(resolution.py 62) compares three counters that every update moves in
lockstep, so it stops after a single pass without ever resolving the newly
derived clauses `{2}` and `{1}` against anything. -/
theorem engines_disagree :
    DPSolver.solve [[1, 2], [-1], [-2]] = some false
    ∧ DPLLSolver.solve [[1, 2], [-1], [-2]] = some (none, ⟨0, 0, 2, 0⟩)
    ∧ ResolutionEngine.solve [[1, 2], [-1], [-2]] = some false
    ∧ ¬ Satisfiable [[1, 2], [-1], [-2]] := by
  refine ⟨by decide, by decide, by decide, ?_⟩
  rintro ⟨σ, hσ⟩
  obtain ⟨l1, hl1, he1⟩ := hσ [-1] (by simp)
  obtain ⟨l2, hl2, he2⟩ := hσ [-2] (by simp)
  obtain ⟨l, hl, he⟩ := hσ [1, 2] (by simp)
  simp only [List.mem_singleton] at hl1 hl2
  subst hl1
  subst hl2
  rw [evalLit, if_neg (by omega), show -(-1 : Int) = 1 by decide,
    Bool.not_eq_true'] at he1
  rw [evalLit, if_neg (by omega), show -(-2 : Int) = 2 by decide,
    Bool.not_eq_true'] at he2
  rcases List.mem_cons.1 hl with rfl | hl'
  · rw [evalLit, if_pos (by omega), he1] at he
    exact absurd he (by decide)
  · rw [List.mem_singleton] at hl'
    subst hl'
    rw [evalLit, if_pos (by omega), he2] at he
    exact absurd he (by decide)

/-- Every update of the innermost loop moves `len(pool)`, `len(derived)`
and `total_count` in lockstep, so the three-way equality tested by the
fixed-point check at resolution.py 62 is preserved by processing one
resolvent. -/
theorem ResolutionEngine.step_counts (n : Nat) (st : ResolutionEngine.RState)
    (c : List Int)
    (h1 : st.pool.length = n + st.derived.length) (h2 : st.pool.length = st.total) :
    (ResolutionEngine.step st c).1.pool.length =
        n + (ResolutionEngine.step st c).1.derived.length
      ∧ (ResolutionEngine.step st c).1.pool.length =
        (ResolutionEngine.step st c).1.total := by
  rw [ResolutionEngine.step]
  dsimp only
  split
  · exact ⟨h1, h2⟩
  · refine ⟨?_, ?_⟩ <;> simp [h1, h2] <;> omega

/-- The lockstep equality survives a whole pair's worth of resolvents. -/
theorem ResolutionEngine.stepAll_counts (n : Nat) :
    ∀ (cs : List (List Int)) (st : ResolutionEngine.RState),
    st.pool.length = n + st.derived.length → st.pool.length = st.total →
    (ResolutionEngine.stepAll st cs).1.pool.length =
        n + (ResolutionEngine.stepAll st cs).1.derived.length
      ∧ (ResolutionEngine.stepAll st cs).1.pool.length =
        (ResolutionEngine.stepAll st cs).1.total := by
  intro cs
  induction cs with
  | nil => intro st h1 h2; exact ⟨h1, h2⟩
  | cons c rest ih =>
    intro st h1 h2
    rw [ResolutionEngine.stepAll]
    obtain ⟨g1, g2⟩ := ResolutionEngine.step_counts n st c h1 h2
    split
    · rename_i st1 hs
      rw [hs] at g1 g2
      exact ⟨g1, g2⟩
    · rename_i st1 hs
      rw [hs] at g1 g2
      exact ih st1 g1 g2

/-- The lockstep equality survives a whole outer pass. -/
theorem ResolutionEngine.runPass_counts (n : Nat) (snap : List (List Int)) :
    ∀ (prs : List (Nat × Nat)) (st : ResolutionEngine.RState),
    st.pool.length = n + st.derived.length → st.pool.length = st.total →
    (ResolutionEngine.runPass snap prs st).1.pool.length =
        n + (ResolutionEngine.runPass snap prs st).1.derived.length
      ∧ (ResolutionEngine.runPass snap prs st).1.pool.length =
        (ResolutionEngine.runPass snap prs st).1.total := by
  intro prs
  induction prs with
  | nil => intro st h1 h2; exact ⟨h1, h2⟩
  | cons pr rest ih =>
    intro st h1 h2
    rcases pr with ⟨i, j⟩
    rw [ResolutionEngine.runPass]
    obtain ⟨g1, g2⟩ := ResolutionEngine.stepAll_counts n
      (ResolutionEngine.resolve_pair (snap.getD i []) (snap.getD j [])) st h1 h2
    split
    · rename_i st1 hs
      rw [hs] at g1 g2
      exact ⟨g1, g2⟩
    · rename_i st1 hs
      rw [hs] at g1 g2
      exact ih st1 g1 g2

/-- C2 fails on the code, in general and at a witness input.  General
part: on every input, `ResolutionEngine.solve` returns the verdict and
state of its very first pass — the fixed-point test at resolution.py 62
compares `len(pool)`, `len(initial) + len(derived)` and `total_count`,
three quantities the updates keep equal at all times, so the test is
always true and the `while` loop never runs a second pass, whether or not
the pass added clauses.  Concrete part: on `[[1, 2], [-1]]` the single
pass adds the new clause `[2]` (the pool grows to three clauses, one
derived index) and the engine still answers SAT right then, with the
resolution-attempt counter `pairs` equal to 1; an engine that re-scanned
the grown pool before terminating would enumerate the resolvent of the
first two clauses again during the verification pass and finish with
`pairs` at least 2. -/
theorem resolution_stops_after_one_pass :
    (∀ input : List (List Int),
      ResolutionEngine.run input =
        some ((ResolutionEngine.runPass (input.map canon)
            (ResolutionEngine.pairsUpTo (input.map canon).length)
            { pool := input.map canon, seen := input.map canon, derived := [],
              total := (input.map canon).length, pairs := 0 }).2,
          (ResolutionEngine.runPass (input.map canon)
            (ResolutionEngine.pairsUpTo (input.map canon).length)
            { pool := input.map canon, seen := input.map canon, derived := [],
              total := (input.map canon).length, pairs := 0 }).1))
    ∧ ResolutionEngine.run [[1, 2], [-1]] =
        some (false,
          { pool := [[1, 2], [-1], [2]], seen := [[2], [1, 2], [-1]],
            derived := [3], total := 3, pairs := 1 }) := by
  constructor
  · intro input
    obtain ⟨g1, g2⟩ := ResolutionEngine.runPass_counts (input.map canon).length
      (input.map canon) (ResolutionEngine.pairsUpTo (input.map canon).length)
      { pool := input.map canon, seen := input.map canon, derived := [],
        total := (input.map canon).length, pairs := 0 } (by simp) rfl
    rcases hrp : ResolutionEngine.runPass (input.map canon)
        (ResolutionEngine.pairsUpTo (input.map canon).length)
        { pool := input.map canon, seen := input.map canon, derived := [],
          total := (input.map canon).length, pairs := 0 } with ⟨st', stopped⟩
    rw [hrp] at g1 g2
    rw [ResolutionEngine.run]
    dsimp only
    rw [ResolutionEngine.solveLoop]
    dsimp only
    rw [hrp]
    cases stopped with
    | true => rfl
    | false =>
      dsimp only
      rw [if_pos ⟨g1, g2⟩]
  · decide

/-- C3 fails on the code for two of the three engines: on the formula
`[[]]` whose only clause is empty, DP returns `False` (UNSAT) as claimed,
but the Resolution engine returns `False` (SAT) — it reports UNSAT only
for a newly derived empty clause, and an initial empty clause generates no
resolvents and is in `clauses_seen` from the start — and DPLL raises
`IndexError` at the pivot access `clauses[0][0]` (the crash value `none`)
instead of returning `None`. -/
theorem empty_clause_verdicts :
    DPSolver.solve [[]] = some false
    ∧ ResolutionEngine.solve [[]] = some false
    ∧ DPLLSolver.solve [[]] = none := by
  refine ⟨by decide, by decide, by decide⟩

/-- C7: the formula with zero clauses is SAT under all three engines: DP
returns `True`, DPLL returns the empty model (with zeroed counters),
Resolution returns `False` (SAT). -/
theorem empty_formula_sat :
    DPSolver.solve [] = some true
    ∧ DPLLSolver.solve [] = some (some [], ⟨0, 0, 0, 0⟩)
    ∧ ResolutionEngine.solve [] = some false := by
  refine ⟨by decide, by decide, by decide⟩

/-! ### Claim C9: the engines never mutate the caller's clause objects

Python clauses are heap-allocated list objects handled by reference.  To
state that a solver run leaves the caller's clauses untouched, this
section repeats the embedding in store-passing style: a `Heap` is the
list of clause cells allocated so far (a cell's address is its index in
order of allocation), a formula is a list of addresses, and every list
the Python code creates — a list comprehension, a slice copy `clause[:]`,
a `reduced` list — allocates a fresh cell, while the partitioning in
`_eliminate`, the clause filtering of pure-literal elimination, and
passing clauses along reuse addresses, exactly as the reference-passing
source does.  Neither solver contains a statement that writes to an
existing clause object, so the heap only ever grows by allocation: the
final heap extends the initial one and every address the caller holds
reads the same clause value afterwards.  (The DPLL model dict and the
statistics counters hold booleans and integers, never a clause
reference, and never influence which clause operations run, so this
projection omits them.) -/

abbrev Heap := List (List Int)

/-- Dereference a clause address. -/
def readH (h : Heap) (a : Nat) : List Int := h.getD a []

/-- Allocate a fresh cell holding the list value `c`. -/
def allocH (h : Heap) (c : List Int) : Heap × Nat := (h ++ [c], h.length)

/-- Allocate one fresh cell per value. -/
def allocList (h : Heap) : List (List Int) → Heap × List Nat
  | [] => (h, [])
  | c :: cs =>
    match allocList (allocH h c).1 cs with
    | (h2, as) => (h2, (allocH h c).2 :: as)

/-- The copy `[c[:] for c in clauses]` (dp.py 31, dpll.py 102): allocate a fresh
copy of every clause the caller passed in. -/
def copyClausesH (h : Heap) (addrs : List Nat) : Heap × List Nat :=
  allocList h (addrs.map (readH h))

namespace DPSolver

/-- Store-passing `_eliminate`: the three partitions share the caller's
cells; each resolvent is a freshly allocated list. -/
def eliminateH (var : Int) (h : Heap) (addrs : List Nat) : Heap × Option (List Nat) :=
  let pos := addrs.filter (fun a => decide (var ∈ readH h a))
  let neg := addrs.filter (fun a => !decide (var ∈ readH h a) && decide (-var ∈ readH h a))
  let rest := addrs.filter (fun a => !decide (var ∈ readH h a) && !decide (-var ∈ readH h a))
  let vals := pos.flatMap (fun a1 => neg.map (fun a2 =>
    resolvent var (readH h a1) (readH h a2)))
  match allocList h vals with
  | (h2, newAddrs) =>
    if vals.any (fun r => r.isEmpty) then (h2, none)
    else (h2, some (rest ++ newAddrs))

/-- Store-passing form of the `solve` loop. -/
def solveHF : Nat → Heap → List Nat → Heap × Option Bool
  | 0, h, _ => (h, none)
  | fuel + 1, h, addrs =>
    if addrs.isEmpty then (h, some true)
    else if addrs.any (fun a => (readH h a).isEmpty) then (h, some false)
    else
      match choose_var (addrs.map (readH h)) with
      | none => (h, some true)
      | some v =>
        match eliminateH v h addrs with
        | (h2, none) => (h2, some false)
        | (h2, some next) => solveHF fuel h2 next

/-- Embedding of `DPSolver(clauses).solve()` in store-passing form: the constructor
copies the caller's clauses, then the loop runs on the copies only. -/
def solveH (h : Heap) (caller : List Nat) : Heap × Option Bool :=
  match copyClausesH h caller with
  | (h1, own) => solveHF ((varsOf (own.map (readH h1))).card + 1) h1 own

end DPSolver

namespace DPLLSolver

/-- Store-passing `_simplify`: satisfied clauses are dropped, reduced
clauses and untouched clauses (`clause[:]`, dpll.py 71) are freshly
allocated; the input cells are only read. -/
def simplifyH (h : Heap) (addrs : List Nat) (lit : Int) : Heap × Option (List Nat) :=
  match addrs with
  | [] => (h, some [])
  | a :: rest =>
    if lit ∈ readH h a then simplifyH h rest lit
    else if -lit ∈ readH h a then
      match allocH h ((readH h a).filter (fun x => x != -lit)) with
      | (h1, a') =>
        if ((readH h a).filter (fun x => x != -lit)).isEmpty then (h1, none)
        else
          match simplifyH h1 rest lit with
          | (h2, none) => (h2, none)
          | (h2, some rs) => (h2, some (a' :: rs))
    else
      match allocH h (readH h a) with
      | (h1, a') =>
        match simplifyH h1 rest lit with
        | (h2, none) => (h2, none)
        | (h2, some rs) => (h2, some (a' :: rs))

/-- Store-passing unit-propagation loop. -/
def unitLoopH : Nat → Heap → List Nat → Heap × Option (Option (List Nat))
  | 0, h, _ => (h, none)
  | fuel + 1, h, addrs =>
    match find_unit (addrs.map (readH h)) with
    | none => (h, some (some addrs))
    | some u =>
      match simplifyH h addrs u with
      | (h1, none) => (h1, some none)
      | (h1, some addrs') => unitLoopH fuel h1 addrs'

/-- Store-passing pure-literal loop: `[c for c in clauses if pure not in c]`
builds a new outer list but reuses the clause cells, so the heap is
untouched here. -/
def pureLoopH : Nat → Heap → List Nat → Heap × Option (List Nat)
  | 0, h, _ => (h, none)
  | fuel + 1, h, addrs =>
    match find_pure (addrs.map (readH h)) with
    | none => (h, some addrs)
    | some p =>
      pureLoopH fuel h (addrs.filter (fun a => !decide (p ∈ readH h a)))

/-- Store-passing `_propagate`. -/
def propagateH (h : Heap) (addrs : List Nat) : Heap × Option (Option (List Nat)) :=
  match unitLoopH ((varsOf (addrs.map (readH h))).card + 1) h addrs with
  | (h1, none) => (h1, none)
  | (h1, some none) => (h1, some none)
  | (h1, some (some as1)) =>
    match pureLoopH (as1.length + 1) h1 as1 with
    | (h2, none) => (h2, none)
    | (h2, some as2) => (h2, some (some as2))

/-- Store-passing `solve` recursion, keeping only the verdict (`some true`
SAT, `some false` UNSAT, `none` crash or fuel exhaustion). -/
def solveHF : Nat → Heap → List Nat → Heap × Option Bool
  | 0, h, _ => (h, none)
  | fuel + 1, h, addrs =>
    match propagateH h addrs with
    | (h1, none) => (h1, none)
    | (h1, some none) => (h1, some false)
    | (h1, some (some as1)) =>
      match as1 with
      | [] => (h1, some true)
      | a0 :: _ =>
        match readH h1 a0 with
        | [] => (h1, none)
        | p :: _ =>
          match simplifyH h1 as1 p with
          | (h2, none) =>
            match simplifyH h2 as1 (-p) with
            | (h3, none) => (h3, some false)
            | (h3, some red2) => solveHF fuel h3 red2
          | (h2, some red) =>
            match solveHF fuel h2 red with
            | (h3, none) => (h3, none)
            | (h3, some true) => (h3, some true)
            | (h3, some false) =>
              match simplifyH h3 as1 (-p) with
              | (h4, none) => (h4, some false)
              | (h4, some red2) => solveHF fuel h4 red2

/-- Embedding of `DPLLSolver(cnf).solve()` in store-passing form: `solve` copies the
instance's formula on entry, then works on fresh cells only. -/
def solveH (h : Heap) (caller : List Nat) : Heap × Option Bool :=
  match copyClausesH h caller with
  | (h1, own) => solveHF ((varsOf (own.map (readH h1))).card + 1) h1 own

end DPLLSolver

theorem readH_stable {h h' : Heap} (hp : h <+: h') {a : Nat} (ha : a < h.length) :
    readH h' a = readH h a := by
  obtain ⟨t, rfl⟩ := hp
  unfold readH
  exact List.getD_append h t [] a ha

theorem allocList_grows : ∀ (vals : List (List Int)) (h : Heap),
    h <+: (allocList h vals).1 := by
  intro vals
  induction vals with
  | nil => intro h; exact List.prefix_refl _
  | cons c cs ih =>
    intro h
    rw [allocList]
    rcases hal : allocList (allocH h c).1 cs with ⟨h2, as⟩
    have step1 : h <+: (allocH h c).1 := List.prefix_append _ _
    have step2 := ih (allocH h c).1
    rw [hal] at step2
    exact step1.trans step2

theorem copyClausesH_grows (h : Heap) (addrs : List Nat) :
    h <+: (copyClausesH h addrs).1 :=
  allocList_grows _ _

namespace DPSolver

theorem eliminateH_grows (var : Int) (h : Heap) (addrs : List Nat) :
    h <+: (eliminateH var h addrs).1 := by
  rw [eliminateH]
  dsimp only
  rcases hal : allocList h _ with ⟨h2, newAddrs⟩
  have := allocList_grows
    ((addrs.filter (fun a => decide (var ∈ readH h a))).flatMap (fun a1 =>
      (addrs.filter (fun a =>
        !decide (var ∈ readH h a) && decide (-var ∈ readH h a))).map (fun a2 =>
          resolvent var (readH h a1) (readH h a2)))) h
  rw [hal] at this
  split
  · exact this
  · exact this

theorem dpSolveHF_grows : ∀ (fuel : Nat) (h : Heap) (addrs : List Nat),
    h <+: (solveHF fuel h addrs).1 := by
  intro fuel
  induction fuel with
  | zero => intro h addrs; exact List.prefix_refl _
  | succ n ih =>
    intro h addrs
    rw [solveHF]
    split
    · exact List.prefix_refl _
    · split
      · exact List.prefix_refl _
      · split
        · exact List.prefix_refl _
        · rename_i v hv
          rcases hel : eliminateH v h addrs with ⟨h2, r⟩
          have hpre : h <+: h2 := by
            have := eliminateH_grows v h addrs
            rw [hel] at this
            exact this
          cases r with
          | none => exact hpre
          | some next => exact hpre.trans (ih h2 next)

theorem dpSolveH_grows (h : Heap) (caller : List Nat) :
    h <+: (solveH h caller).1 := by
  rw [solveH]
  rcases hcp : copyClausesH h caller with ⟨h1, own⟩
  have hpre : h <+: h1 := by
    have := copyClausesH_grows h caller
    rw [hcp] at this
    exact this
  exact hpre.trans (dpSolveHF_grows _ h1 own)

end DPSolver

namespace DPLLSolver

theorem simplifyH_grows : ∀ (addrs : List Nat) (h : Heap) (lit : Int),
    h <+: (simplifyH h addrs lit).1 := by
  intro addrs
  induction addrs with
  | nil => intro h lit; exact List.prefix_refl _
  | cons a rest ih =>
    intro h lit
    rw [simplifyH]
    split
    · exact ih h lit
    · split
      · rcases hal : allocH h ((readH h a).filter (fun x => x != -lit)) with ⟨h1, a'⟩
        try rw [hal]
        try dsimp only
        have hpre : h <+: h1 := by
          have : h <+: (allocH h ((readH h a).filter (fun x => x != -lit))).1 :=
            List.prefix_append _ _
          rw [hal] at this
          exact this
        split
        · exact hpre
        · rcases hs : simplifyH h1 rest lit with ⟨h2, r⟩
          try rw [hs]
          try dsimp only
          have hpre2 : h1 <+: h2 := by
            have := ih h1 lit
            rw [hs] at this
            exact this
          cases r with
          | none => exact hpre.trans hpre2
          | some rs => exact hpre.trans hpre2
      · rcases hal : allocH h (readH h a) with ⟨h1, a'⟩
        try rw [hal]
        try dsimp only
        have hpre : h <+: h1 := by
          have : h <+: (allocH h (readH h a)).1 := List.prefix_append _ _
          rw [hal] at this
          exact this
        rcases hs : simplifyH h1 rest lit with ⟨h2, r⟩
        try rw [hs]
        try dsimp only
        have hpre2 : h1 <+: h2 := by
          have := ih h1 lit
          rw [hs] at this
          exact this
        cases r with
        | none => exact hpre.trans hpre2
        | some rs => exact hpre.trans hpre2

theorem unitLoopH_grows : ∀ (fuel : Nat) (h : Heap) (addrs : List Nat),
    h <+: (unitLoopH fuel h addrs).1 := by
  intro fuel
  induction fuel with
  | zero => intro h addrs; exact List.prefix_refl _
  | succ n ih =>
    intro h addrs
    rw [unitLoopH]
    split
    · exact List.prefix_refl _
    · rename_i u hu
      rcases hs : simplifyH h addrs u with ⟨h1, r⟩
      try rw [hs]
      try dsimp only
      have hpre : h <+: h1 := by
        have := simplifyH_grows addrs h u
        rw [hs] at this
        exact this
      cases r with
      | none => exact hpre
      | some addrs' => exact hpre.trans (ih h1 addrs')

theorem pureLoopH_grows : ∀ (fuel : Nat) (h : Heap) (addrs : List Nat),
    h <+: (pureLoopH fuel h addrs).1 := by
  intro fuel
  induction fuel with
  | zero => intro h addrs; exact List.prefix_refl _
  | succ n ih =>
    intro h addrs
    rw [pureLoopH]
    split
    · exact List.prefix_refl _
    · exact ih h _

theorem propagateH_grows (h : Heap) (addrs : List Nat) :
    h <+: (propagateH h addrs).1 := by
  rw [propagateH]
  split
  · rename_i h1 heq
    have := unitLoopH_grows ((varsOf (addrs.map (readH h))).card + 1) h addrs
    rw [heq] at this
    exact this
  · rename_i h1 heq
    have := unitLoopH_grows ((varsOf (addrs.map (readH h))).card + 1) h addrs
    rw [heq] at this
    exact this
  · rename_i h1 as1 heq
    have hpre : h <+: h1 := by
      have := unitLoopH_grows ((varsOf (addrs.map (readH h))).card + 1) h addrs
      rw [heq] at this
      exact this
    split
    · rename_i h2 heq2
      have := pureLoopH_grows (as1.length + 1) h1 as1
      rw [heq2] at this
      exact hpre.trans this
    · rename_i h2 as2 heq2
      have := pureLoopH_grows (as1.length + 1) h1 as1
      rw [heq2] at this
      exact hpre.trans this

theorem dpllSolveHF_grows : ∀ (fuel : Nat) (h : Heap) (addrs : List Nat),
    h <+: (solveHF fuel h addrs).1 := by
  intro fuel
  induction fuel with
  | zero => intro h addrs; exact List.prefix_refl _
  | succ n ih =>
    intro h addrs
    rw [solveHF]
    split
    · rename_i h1 heq
      have := propagateH_grows h addrs
      rw [heq] at this
      exact this
    · rename_i h1 heq
      have := propagateH_grows h addrs
      rw [heq] at this
      exact this
    · rename_i h1 as1 heq
      have hpre : h <+: h1 := by
        have := propagateH_grows h addrs
        rw [heq] at this
        exact this
      split
      · exact hpre
      · rename_i a0 tl
        split
        · exact hpre
        · rename_i p pt hread
          split
          · rename_i h2 heqs1
            have hpre2 : h1 <+: h2 := by
              have := simplifyH_grows (a0 :: tl) h1 p
              rw [heqs1] at this
              exact this
            split
            · rename_i h3 heqs2
              have hpre3 : h2 <+: h3 := by
                have := simplifyH_grows (a0 :: tl) h2 (-p)
                rw [heqs2] at this
                exact this
              exact (hpre.trans hpre2).trans hpre3
            · rename_i h3 red2 heqs2
              have hpre3 : h2 <+: h3 := by
                have := simplifyH_grows (a0 :: tl) h2 (-p)
                rw [heqs2] at this
                exact this
              exact ((hpre.trans hpre2).trans hpre3).trans (ih h3 red2)
          · rename_i h2 red heqs1
            have hpre2 : h1 <+: h2 := by
              have := simplifyH_grows (a0 :: tl) h1 p
              rw [heqs1] at this
              exact this
            split
            · rename_i h3 heqr
              have hpre3 : h2 <+: h3 := by
                have := ih h2 red
                rw [heqr] at this
                exact this
              exact (hpre.trans hpre2).trans hpre3
            · rename_i h3 heqr
              have hpre3 : h2 <+: h3 := by
                have := ih h2 red
                rw [heqr] at this
                exact this
              exact (hpre.trans hpre2).trans hpre3
            · rename_i h3 heqr
              have hpre3 : h2 <+: h3 := by
                have := ih h2 red
                rw [heqr] at this
                exact this
              split
              · rename_i h4 heqs2
                have hpre4 : h3 <+: h4 := by
                  have := simplifyH_grows (a0 :: tl) h3 (-p)
                  rw [heqs2] at this
                  exact this
                exact ((hpre.trans hpre2).trans hpre3).trans hpre4
              · rename_i h4 red2 heqs2
                have hpre4 : h3 <+: h4 := by
                  have := simplifyH_grows (a0 :: tl) h3 (-p)
                  rw [heqs2] at this
                  exact this
                exact (((hpre.trans hpre2).trans hpre3).trans hpre4).trans (ih h4 red2)

theorem dpllSolveH_grows (h : Heap) (caller : List Nat) :
    h <+: (solveH h caller).1 := by
  rw [solveH]
  rcases hcp : copyClausesH h caller with ⟨h1, own⟩
  have hpre : h <+: h1 := by
    have := copyClausesH_grows h caller
    rw [hcp] at this
    exact this
  exact hpre.trans (dpllSolveHF_grows _ h1 own)

end DPLLSolver

/-- C9: each engine operates on a private copy of the input.  In the
store-passing embedding a run of `DPSolver.solve` or `DPLLSolver.solve`
only ever allocates fresh clause cells (`DPSolver.__init__` and DPLL's
`solve` entry copy every caller clause; `_simplify` builds fresh lists;
partitioning and pure-literal filtering reuse cells read-only), so the
final heap extends the initial one and every clause address the caller
holds reads exactly the value it held before the call. -/
theorem solvers_no_mutation (h : Heap) (caller : List Nat) :
    (∀ a, a < h.length → readH (DPSolver.solveH h caller).1 a = readH h a)
    ∧ (∀ a, a < h.length → readH (DPLLSolver.solveH h caller).1 a = readH h a) :=
  ⟨fun _ ha => readH_stable (DPSolver.dpSolveH_grows h caller) ha,
   fun _ ha => readH_stable (DPLLSolver.dpllSolveH_grows h caller) ha⟩

/-- Witness for `solvers_no_mutation` on a concrete two-clause heap. -/
theorem solvers_no_mutation_witness :
    readH (DPSolver.solveH [[5], [-5]] [0, 1]).1 0 = readH [[5], [-5]] 0
    ∧ readH (DPLLSolver.solveH [[5], [-5]] [0, 1]).1 0 = readH [[5], [-5]] 0 :=
  ⟨(solvers_no_mutation [[5], [-5]] [0, 1]).1 0 (by decide),
   (solvers_no_mutation [[5], [-5]] [0, 1]).2 0 (by decide)⟩
